import Mathlib

/-!
DNS wire codec of `go-dns-resolver` (`main.go`)

A shallow embedding of the message codec of `main.go`.

* Bytes (`byte`, `uint8`) and the wider machine integers (`uint16`, `uint32`, `int`) are
  natural numbers; every place where Go truncates to a width carries an explicit `% 2 ^ w`.
* A Go `string` and a Go `[]byte` are both `List Nat` (the list of their bytes).
* `bytes.Buffer` is the pair of its backing slice `buf` and its read offset `off`; the methods
  the program calls (`ReadByte`, `Read`, `Len`, `Truncate`, `Reset`) follow the Go standard
  library line by line.
* A Go function that may return an error, or abort with a run-time panic, returns an `Outcome`.
-/

namespace DNSResolver

/-! ## Data model (`main.go`, lines 14-48) -/

/-- The struct `DNSHeader`: six `uint16` fields. -/
structure DNSHeader where
  id : Nat
  flags : Nat
  questions : Nat
  answers : Nat
  authorities : Nat
  additional : Nat
  deriving DecidableEq, Repr

/-- The struct `DNSQuestion`: `name []byte`, `type_ uint16`, `class uint16` (the field `class`
is `class_` here, `class` being a keyword). -/
structure DNSQuestion where
  name : List Nat
  type_ : Nat
  class_ : Nat
  deriving DecidableEq, Repr

/-- The struct `DNSRecord`. -/
structure DNSRecord where
  name : List Nat
  type_ : Nat
  class_ : Nat
  ttl : Nat
  dataLen : Nat
  data : List Nat
  deriving DecidableEq, Repr

/-- The package variable `TYPE_A`. -/
def TYPE_A : Nat := 1

/-- The package variable `CLASS_IN`. -/
def CLASS_IN : Nat := 1

/-- Every field of the header is in the range of `uint16`. -/
def DNSHeader.InRange (h : DNSHeader) : Prop :=
  h.id < 65536 ∧ h.flags < 65536 ∧ h.questions < 65536 ∧
    h.answers < 65536 ∧ h.authorities < 65536 ∧ h.additional < 65536

instance (h : DNSHeader) : Decidable h.InRange := by
  unfold DNSHeader.InRange; infer_instance

/-! ## Slices and `encoding/binary` -/

/-- The built-in `make([]byte, n)`: `n` zero bytes. -/
def makeBytes (n : Nat) : List Nat := List.replicate n 0

/-- The built-in `copy(dst[i:], src)`: overwrites `min (len dst - i) (len src)` bytes of `dst`
from index `i` on, and leaves the length of `dst` as it is. -/
def copyAt (dst : List Nat) (i : Nat) (src : List Nat) : List Nat :=
  dst.take i ++ src.take (dst.length - i) ++ dst.drop (i + src.length)

/-- The call `binary.BigEndian.PutUint16(b[i:], v)`: `b[i] = byte(v >> 8)`, `b[i+1] = byte(v)`.
Every call of the program has `i + 1 < len(b)`. -/
def putUint16At (b : List Nat) (i : Nat) (v : Nat) : List Nat :=
  (b.set i ((v >>> 8) % 256)).set (i + 1) (v % 256)

/-- The function `binary.BigEndian.Uint16(b)`: `uint16(b[1]) | uint16(b[0])<<8`. It is only
called on the 2 bytes that `binary.Read` has read. -/
def beUint16 (b : List Nat) : Nat :=
  (b.getD 1 0 ||| (b.getD 0 0 <<< 8)) % 65536

/-- The function `binary.BigEndian.Uint32(b)`:
`uint32(b[3]) | uint32(b[2])<<8 | uint32(b[1])<<16 | uint32(b[0])<<24`. -/
def beUint32 (b : List Nat) : Nat :=
  (b.getD 3 0 ||| (b.getD 2 0 <<< 8) ||| (b.getD 1 0 <<< 16) ||| (b.getD 0 0 <<< 24)) % 4294967296

/-! ## Encoders (`main.go`, lines 50-111) -/

/-- The function `headerToBytes`. -/
def headerToBytes (h : DNSHeader) : List Nat :=
  let byteData := makeBytes 12
  let byteData := putUint16At byteData 0 h.id
  let byteData := putUint16At byteData 2 h.flags
  let byteData := putUint16At byteData 4 h.questions
  let byteData := putUint16At byteData 6 h.answers
  let byteData := putUint16At byteData 8 h.authorities
  let byteData := putUint16At byteData 10 h.additional
  byteData

/-- The function `questionToBytes`. -/
def questionToBytes (q : DNSQuestion) : List Nat :=
  let byteData := makeBytes (q.name.length + 6)
  let byteData := copyAt byteData 0 q.name
  let byteData := putUint16At byteData q.name.length q.type_
  let byteData := putUint16At byteData (q.name.length + 2) q.class_
  byteData

/-- The byte `'.'`. -/
def dot : Nat := 46

/-- The call `strings.Split(s, ".")`: the substrings of `s` between the dots, in order; a string
without a dot (the empty string too) gives the one-element slice holding the string itself. -/
def splitDots : List Nat → List (List Nat)
  | [] => [[]]
  | c :: cs =>
    if c = dot then [] :: splitDots cs
    else
      match splitDots cs with
      | [] => [[c]]
      | p :: ps => (c :: p) :: ps

/-- The function `encodeDNSName`: the loop body appends `byte(len(part))` and then the part. -/
def encodeDNSName (domain_name : List Nat) : List Nat :=
  let result := (splitDots domain_name).foldl
    (fun result part => (result ++ [part.length % 256]) ++ part) []
  result ++ [0]

/-- The function `buildQuery`; `id` is the value returned by `rand.Intn(65535)`. -/
def buildQuery (id : Nat) (domainName : List Nat) (recordType : Nat) : List Nat :=
  let encodedName := encodeDNSName domainName
  let RECURSION_DESIRED := 1 <<< 8
  let header : DNSHeader :=
    { id := id % 65536, questions := 1, flags := RECURSION_DESIRED % 65536,
      answers := 0, authorities := 0, additional := 0 }
  let question : DNSQuestion :=
    { name := encodedName, type_ := recordType, class_ := CLASS_IN % 65536 }
  let headerBytes := headerToBytes header
  let questionBytes := questionToBytes question
  let query := makeBytes (headerBytes.length + questionBytes.length)
  let query := copyAt query 0 headerBytes
  let query := copyAt query headerBytes.length questionBytes
  query

/-! ## `bytes.Buffer` and `io` (Go standard library) -/

/-- The errors of package `io` that a read from a `bytes.Buffer` can return. -/
inductive GoError where
  | EOF
  | ErrUnexpectedEOF
  | ErrShortBuffer
  deriving DecidableEq, Repr

/-- The type `bytes.Buffer`: the backing slice `buf` and the read offset `off`; the unread bytes
are `buf[off:]`. -/
structure Buffer where
  buf : List Nat
  off : Nat
  deriving DecidableEq, Repr

/-- The function `bytes.NewBuffer`. -/
def NewBuffer (buf : List Nat) : Buffer := ⟨buf, 0⟩

namespace Buffer

/-- The unread portion `b.buf[b.off:]`. -/
def unread (b : Buffer) : List Nat := b.buf.drop b.off

/-- The method `empty`: `len(b.buf) <= b.off`. -/
def empty (b : Buffer) : Bool := decide (b.buf.length ≤ b.off)

/-- The method `Len`: `len(b.buf) - b.off`. -/
def Len (b : Buffer) : Nat := b.buf.length - b.off

/-- The method `Reset`: `b.buf = b.buf[:0]; b.off = 0`. -/
def Reset (_b : Buffer) : Buffer := ⟨[], 0⟩

/-- The method `Truncate`, for `n ≥ 0`: `none` is the panic
`bytes.Buffer: truncation out of range`. -/
def Truncate (b : Buffer) (n : Nat) : Option Buffer :=
  if n = 0 then some b.Reset
  else if n > b.Len then none
  else some ⟨b.buf.take (b.off + n), b.off⟩

/-- The method `ReadByte`. -/
def ReadByte (b : Buffer) : Except GoError Nat × Buffer :=
  if b.empty then (.error .EOF, b.Reset)
  else (.ok (b.buf.getD b.off 0), ⟨b.buf, b.off + 1⟩)

/-- The method `Read(p)`: returns the slice `p` after the call, the count `n`, the error and the
buffer. On a buffer that is not empty, `n = copy(p, b.buf[b.off:])` and the error is `nil`
even when `n < len(p)`; only the first `n` bytes of `p` are overwritten. -/
def Read (b : Buffer) (p : List Nat) : List Nat × Nat × Option GoError × Buffer :=
  if b.empty then
    if p.length = 0 then (p, 0, none, b.Reset) else (p, 0, some .EOF, b.Reset)
  else
    let n := min p.length (b.buf.length - b.off)
    (copyAt p 0 b.unread, n, none, ⟨b.buf, b.off + n⟩)

end Buffer

/-- The loop of `io.ReadAtLeast`: `for n < min && err == nil { nn, err = r.Read(buf[n:]); n += nn }`.
On a `bytes.Buffer` every pass but the last copies at least one byte, so `min + 1` passes
are enough. -/
def readAtLeastLoop : Nat → Buffer → List Nat → Nat → Nat → List Nat × Nat × Option GoError × Buffer
  | 0, r, buf, _, n => (buf, n, none, r)
  | fuel + 1, r, buf, min, n =>
    if n < min then
      match r.Read (buf.drop n) with
      | (p, nn, none, r1) => readAtLeastLoop fuel r1 (buf.take n ++ p) min (n + nn)
      | (p, nn, some e, r1) => (buf.take n ++ p, n + nn, some e, r1)
    else (buf, n, none, r)

/-- The function `io.ReadAtLeast` on a `bytes.Buffer`. -/
def ReadAtLeast (r : Buffer) (buf : List Nat) (min : Nat) :
    List Nat × Nat × Option GoError × Buffer :=
  if buf.length < min then (buf, 0, some .ErrShortBuffer, r)
  else
    match readAtLeastLoop (min + 1) r buf min 0 with
    | (buf1, n, err, r1) =>
      if n ≥ min then (buf1, n, none, r1)
      else if n > 0 ∧ err = some .EOF then (buf1, n, some .ErrUnexpectedEOF, r1)
      else (buf1, n, err, r1)

/-- The function `io.ReadFull`: `ReadAtLeast(r, buf, len(buf))`. -/
def ReadFull (r : Buffer) (buf : List Nat) : List Nat × Nat × Option GoError × Buffer :=
  ReadAtLeast r buf buf.length

/-- The call `binary.Read(buffer, binary.BigEndian, &x)` for `x` of type `uint16`: returns the
value of `x` after the call (unchanged on an error), the error and the buffer. -/
def binaryReadUint16 (r : Buffer) (x : Nat) : Nat × Option GoError × Buffer :=
  match ReadFull r (makeBytes 2) with
  | (bs, _, none, r1) => (beUint16 bs, none, r1)
  | (_, _, some e, r1) => (x, some e, r1)

/-- The call `binary.Read(buffer, binary.BigEndian, &x)` for `x` of type `uint32`. -/
def binaryReadUint32 (r : Buffer) (x : Nat) : Nat × Option GoError × Buffer :=
  match ReadFull r (makeBytes 4) with
  | (bs, _, none, r1) => (beUint32 bs, none, r1)
  | (_, _, some e, r1) => (x, some e, r1)

/-- The call `strings.TrimSuffix(s, ".")`. -/
def trimSuffixDot (s : List Nat) : List Nat :=
  if s.getLast? = some dot then s.dropLast else s

/-! ## Decoders (`main.go`, lines 113-229) -/

/-- How a call of a decoder ends: it returns a value and a `nil` error, it returns a non-`nil`
error, or it aborts with the panic of `Truncate`. The buffer is passed by pointer, so the first
two carry its state at the return. `outOfFuel` belongs to the model only. -/
inductive Outcome (α : Type) where
  | ok (v : α) (b : Buffer)
  | error (e : GoError) (b : Buffer)
  | panic
  | outOfFuel
  deriving DecidableEq, Repr

/-- The function `parseHeader`: the six errors of `binary.Read` are dropped. -/
def parseHeader (buffer : Buffer) : DNSHeader × Buffer :=
  let header : DNSHeader := ⟨0, 0, 0, 0, 0, 0⟩
  match binaryReadUint16 buffer header.id with
  | (id, _, buffer) =>
  match binaryReadUint16 buffer header.flags with
  | (flags, _, buffer) =>
  match binaryReadUint16 buffer header.questions with
  | (questions, _, buffer) =>
  match binaryReadUint16 buffer header.answers with
  | (answers, _, buffer) =>
  match binaryReadUint16 buffer header.authorities with
  | (authorities, _, buffer) =>
  match binaryReadUint16 buffer header.additional with
  | (additional, _, buffer) =>
    (⟨id, flags, questions, answers, authorities, additional⟩, buffer)

/-- The local `offset` of `parseName`: `int(((lengthByte & 0x3F) << 8) | pointerByte)`. Both
operands have type `byte`, so the shift is taken modulo 256 before the conversion to `int`. -/
def pointerOffset (lengthByte pointerByte : Nat) : Nat :=
  (((lengthByte &&& 0x3F) <<< 8) % 256) ||| pointerByte

/-- The body of `parseName`, from the head of its `for` loop on, with the local `name` written
so far. One unit of `fuel` is spent per pass of the loop and per nested call. -/
def parseNameLoop : Nat → Buffer → List Nat → Outcome (List Nat)
  | 0, _, _ => .outOfFuel
  | fuel + 1, buffer, name =>
    match buffer.ReadByte with
    | (.error err, buffer) => .error err buffer
    | (.ok lengthByte, buffer) =>
      if lengthByte &&& 0xC0 = 0xC0 then
        match buffer.ReadByte with
        | (.error err, buffer) => .error err buffer
        | (.ok pointerByte, buffer) =>
          let offset := pointerOffset lengthByte pointerByte
          let originalPos := buffer.Len
          match buffer.Truncate offset with
          | none => .panic
          | some buffer =>
            match parseNameLoop fuel buffer [] with
            | .ok namePart buffer =>
              match buffer.Truncate originalPos with
              | none => .panic
              | some buffer => .ok (trimSuffixDot ((name ++ namePart) ++ [dot])) buffer
            | .error err buffer => .error err buffer
            | .panic => .panic
            | .outOfFuel => .outOfFuel
      else
        match buffer.Read (makeBytes lengthByte) with
        | (_, _, some err, buffer) => .error err buffer
        | (label, _, none, buffer) =>
          let name := (name ++ label) ++ [dot]
          if lengthByte = 0 then .ok (trimSuffixDot name) buffer
          else parseNameLoop fuel buffer name

/-- The function `parseName`. Every pass of the loop and every nested call follows a successful
`ReadByte`, so `buffer.Len() + 1` units of fuel are never used up. -/
def parseName (buffer : Buffer) : Outcome (List Nat) :=
  parseNameLoop (buffer.Len + 1) buffer []

/-- The function `parseQuestion`: the error of `parseName` and those of `binary.Read` are
dropped; after an error of `parseName` the name is the empty string. -/
def parseQuestion (buffer : Buffer) : Outcome DNSQuestion :=
  let continue_ (name : List Nat) (buffer : Buffer) : Outcome DNSQuestion :=
    match binaryReadUint16 buffer 0 with
    | (type_, _, buffer) =>
    match binaryReadUint16 buffer 0 with
    | (class_, _, buffer) => .ok ⟨name, type_, class_⟩ buffer
  match parseName buffer with
  | .ok name buffer => continue_ name buffer
  | .error _ buffer => continue_ [] buffer
  | .panic => .panic
  | .outOfFuel => .outOfFuel

/-- The function `parseDNSRecord`. -/
def parseDNSRecord (buffer : Buffer) : Outcome DNSRecord :=
  match parseName buffer with
  | .error err buffer => .error err buffer
  | .panic => .panic
  | .outOfFuel => .outOfFuel
  | .ok name buffer =>
    match binaryReadUint16 buffer 0 with
    | (_, some err, buffer) => .error err buffer
    | (type_, none, buffer) =>
    match binaryReadUint16 buffer 0 with
    | (_, some err, buffer) => .error err buffer
    | (class_, none, buffer) =>
    match binaryReadUint32 buffer 0 with
    | (_, some err, buffer) => .error err buffer
    | (ttl, none, buffer) =>
    match binaryReadUint16 buffer 0 with
    | (_, some err, buffer) => .error err buffer
    | (dataLen, none, buffer) =>
    match buffer.Read (makeBytes dataLen) with
    | (_, _, some err, buffer) => .error err buffer
    | (data, _, none, buffer) => .ok ⟨name, type_, class_, ttl, dataLen, data⟩ buffer

/-! ## Vocabulary of the specification -/

/-- The name whose dot-separated parts are `parts`: the parts joined by `'.'`. -/
def joinDots : List (List Nat) → List Nat
  | [] => []
  | [p] => p
  | p :: q :: ps => p ++ dot :: joinDots (q :: ps)

/-- The wire form of a sequence of labels: for each label, in order, one byte holding its length
followed by its bytes. -/
def wireLabels : List (List Nat) → List Nat
  | [] => []
  | p :: ps => (p.length :: p) ++ wireLabels ps

/-- The labels written one after the other, each followed by `'.'`. -/
def dotTerminated : List (List Nat) → List Nat
  | [] => []
  | p :: ps => p ++ dot :: dotTerminated ps

/-- Whether the loop of `parseName`, started on `buffer`, comes to read as its length/control
byte a byte whose top two bits are set: it follows the label branch of the loop, pass after
pass, and answers `true` at the first such byte. A nested call is only made after such a byte
has been read, so this covers the nested calls too. -/
def readsPointer : Nat → Buffer → Bool
  | 0, _ => false
  | fuel + 1, buffer =>
    match buffer.ReadByte with
    | (.error _, _) => false
    | (.ok lengthByte, buffer) =>
      if lengthByte &&& 0xC0 = 0xC0 then true
      else
        match buffer.Read (makeBytes lengthByte) with
        | (_, _, some _, _) => false
        | (_, _, none, buffer) =>
          if lengthByte = 0 then false else readsPointer fuel buffer

/-- The offset that the two bytes of a compression pointer encode on the wire: the 14-bit value
made of the low 6 bits of the first byte and the 8 bits of the second. -/
def wirePointerTarget (lengthByte pointerByte : Nat) : Nat :=
  (lengthByte &&& 0x3F) * 256 + pointerByte

/-- The 16-bit field number `i` (from 0) of the bytes `u`: its big-endian value when both of its
bytes are there, and 0 otherwise. -/
def fieldAt (u : List Nat) (i : Nat) : Nat :=
  if 2 * i + 2 ≤ u.length then u.getD (2 * i) 0 * 256 + u.getD (2 * i + 1) 0 else 0

/-- What one `binary.Read` of a `uint16` makes of the unread bytes `u` and of the variable `x`:
the new value of the variable and the bytes left unread. -/
def readUint16Pure (u : List Nat) (x : Nat) : Nat × List Nat :=
  match u with
  | a :: b :: rest => (beUint16 [a, b], rest)
  | _ => (x, [])

/-- What the six `binary.Read` calls of `parseHeader` make of the unread bytes `u`: the header
and the bytes left unread. -/
def parseHeaderPure (u : List Nat) : DNSHeader × List Nat :=
  let r1 := readUint16Pure u 0
  let r2 := readUint16Pure r1.2 0
  let r3 := readUint16Pure r2.2 0
  let r4 := readUint16Pure r3.2 0
  let r5 := readUint16Pure r4.2 0
  let r6 := readUint16Pure r5.2 0
  (⟨r1.1, r2.1, r3.1, r4.1, r5.1, r6.1⟩, r6.2)

/-! ## Lemmas on slices and big-endian fields -/

theorem shiftRight8_mod (v : Nat) (hv : v < 65536) : (v >>> 8) % 256 = v / 256 := by
  rw [Nat.shiftRight_eq_div_pow]
  have : v / 2 ^ 8 < 256 := by
    rw [Nat.div_lt_iff_lt_mul (by norm_num)]; norm_num; omega
  norm_num at this ⊢
  omega

theorem copyAt_zero_make (src : List Nat) (k : Nat) :
    copyAt (makeBytes (src.length + k)) 0 src = src ++ makeBytes k := by
  simp [copyAt, makeBytes, List.take_of_length_le]

theorem copyAt_length_append (xs ys zs : List Nat) (h : zs.length = ys.length) :
    copyAt (xs ++ zs) xs.length ys = xs ++ ys := by
  unfold copyAt
  rw [List.take_left, ← h, List.drop_append, List.drop_length, List.length_append,
    Nat.add_sub_cancel_left, h, List.take_length]
  simp

theorem putUint16At_append (xs : List Nat) (a b : Nat) (rest : List Nat) (v : Nat) :
    putUint16At (xs ++ a :: b :: rest) xs.length v = xs ++ (v >>> 8) % 256 :: v % 256 :: rest := by
  simp [putUint16At, List.set_append]

theorem headerToBytes_eq (h : DNSHeader) :
    headerToBytes h =
      [(h.id >>> 8) % 256, h.id % 256, (h.flags >>> 8) % 256, h.flags % 256,
       (h.questions >>> 8) % 256, h.questions % 256, (h.answers >>> 8) % 256, h.answers % 256,
       (h.authorities >>> 8) % 256, h.authorities % 256,
       (h.additional >>> 8) % 256, h.additional % 256] := by
  simp [headerToBytes, putUint16At, makeBytes, List.replicate]

theorem questionToBytes_eq (q : DNSQuestion) :
    questionToBytes q =
      q.name ++ [(q.type_ >>> 8) % 256, q.type_ % 256, (q.class_ >>> 8) % 256, q.class_ % 256,
        0, 0] := by
  unfold questionToBytes
  simp only [copyAt_zero_make]
  have h6 : makeBytes 6 = [0, 0, 0, 0, 0, 0] := rfl
  rw [h6, putUint16At_append]
  have := putUint16At_append (q.name ++ [(q.type_ >>> 8) % 256, q.type_ % 256]) 0 0 [0, 0] q.class_
  simp only [List.append_assoc, List.cons_append, List.nil_append, List.length_append,
    List.length_cons, List.length_nil] at this
  simpa using this

/-! ## Claims on the encoders -/

/-- C3: for every header whose fields are 16-bit values, `headerToBytes` returns exactly 12
bytes, the big-endian encodings (high byte, low byte) of id, flags, questions, answers,
authorities and additional, in that order. -/
theorem headerToBytes_bigEndian (h : DNSHeader) (hr : h.InRange) :
    (headerToBytes h).length = 12 ∧
    headerToBytes h =
      [h.id / 256, h.id % 256, h.flags / 256, h.flags % 256,
       h.questions / 256, h.questions % 256, h.answers / 256, h.answers % 256,
       h.authorities / 256, h.authorities % 256, h.additional / 256, h.additional % 256] ∧
    ∀ x ∈ headerToBytes h, x < 256 := by
  obtain ⟨h1, h2, h3, h4, h5, h6⟩ := hr
  rw [headerToBytes_eq, shiftRight8_mod _ h1, shiftRight8_mod _ h2, shiftRight8_mod _ h3,
    shiftRight8_mod _ h4, shiftRight8_mod _ h5, shiftRight8_mod _ h6]
  refine ⟨rfl, rfl, ?_⟩
  intro x hx
  simp only [List.mem_cons, List.mem_singleton, List.not_mem_nil, or_false] at hx
  omega

/-- The header of `TestHeaderToBytes` encodes to the bytes that test expects. -/
theorem headerToBytes_bigEndian_witness :
    (⟨0x1314, 0, 1, 0, 0, 0⟩ : DNSHeader).InRange ∧
    headerToBytes ⟨0x1314, 0, 1, 0, 0, 0⟩ = [19, 20, 0, 0, 0, 1, 0, 0, 0, 0, 0, 0] :=
  ⟨by decide, (headerToBytes_bigEndian ⟨0x1314, 0, 1, 0, 0, 0⟩ (by decide)).2.1⟩

theorem splitDots_ne_nil (s : List Nat) : splitDots s ≠ [] := by
  cases s with
  | nil => simp [splitDots]
  | cons c cs =>
    unfold splitDots
    split
    · simp
    · split <;> simp

theorem splitDots_noDot (p : List Nat) (hp : dot ∉ p) : splitDots p = [p] := by
  induction p with
  | nil => rfl
  | cons c cs ih =>
    have hc : c ≠ dot := fun h => hp (by simp [h])
    have hcs : dot ∉ cs := fun h => hp (by simp [h])
    simp [splitDots, hc, ih hcs]

theorem splitDots_append_dot (p rest : List Nat) (hp : dot ∉ p) :
    splitDots (p ++ dot :: rest) = p :: splitDots rest := by
  induction p with
  | nil => simp [splitDots]
  | cons c cs ih =>
    have hc : c ≠ dot := fun h => hp (by simp [h])
    have hcs : dot ∉ cs := fun h => hp (by simp [h])
    simp [splitDots, hc, ih hcs]

theorem splitDots_joinDots (parts : List (List Nat)) (hne : parts ≠ [])
    (hdot : ∀ p ∈ parts, dot ∉ p) : splitDots (joinDots parts) = parts := by
  induction parts with
  | nil => exact absurd rfl hne
  | cons p ps ih =>
    cases ps with
    | nil => exact splitDots_noDot p (hdot p (by simp))
    | cons q qs =>
      have hp : dot ∉ p := hdot p (by simp)
      have hrest : ∀ r ∈ q :: qs, dot ∉ r := fun r hr => hdot r (List.mem_cons_of_mem _ hr)
      simp only [joinDots]
      rw [splitDots_append_dot p _ hp, ih (by simp) hrest]

theorem encode_foldl (parts : List (List Nat)) (acc : List Nat)
    (hlen : ∀ p ∈ parts, p.length ≤ 63) :
    parts.foldl (fun result part => (result ++ [part.length % 256]) ++ part) acc =
      acc ++ wireLabels parts := by
  induction parts generalizing acc with
  | nil => simp [wireLabels]
  | cons p ps ih =>
    have hp : p.length ≤ 63 := hlen p (by simp)
    have hmod : p.length % 256 = p.length := Nat.mod_eq_of_lt (by omega)
    rw [List.foldl_cons, ih _ (fun r hr => hlen r (List.mem_cons_of_mem _ hr)), hmod]
    simp [wireLabels]

/-- C4: for every domain name whose dot-separated parts (the dot-free strings that, joined by
dots, give the name) are each at most 63 bytes long, `encodeDNSName` returns, for each part in
order, one byte holding the length of the part followed by the bytes of the part, and after
the last part a single zero byte and nothing else. -/
theorem encodeDNSName_wire (name : List Nat) (parts : List (List Nat))
    (hjoin : joinDots parts = name) (hne : parts ≠ [])
    (hdot : ∀ p ∈ parts, dot ∉ p) (hlen : ∀ p ∈ parts, p.length ≤ 63) :
    encodeDNSName name = wireLabels parts ++ [0] := by
  subst hjoin
  unfold encodeDNSName
  simp only [splitDots_joinDots parts hne hdot]
  rw [encode_foldl parts [] hlen]
  simp

/-- The vector of `TestEncodeDNSName`: `"google.com"`, of parts `"google"` and `"com"`, encodes to
`[6,'g','o','o','g','l','e',3,'c','o','m',0]`. -/
theorem encodeDNSName_wire_witness :
    encodeDNSName [103, 111, 111, 103, 108, 101, 46, 99, 111, 109] =
      [6, 103, 111, 111, 103, 108, 101, 3, 99, 111, 109, 0] :=
  encodeDNSName_wire [103, 111, 111, 103, 108, 101, 46, 99, 111, 109]
    [[103, 111, 111, 103, 108, 101], [99, 111, 109]] (by decide) (by decide) (by decide)
    (by decide)

/-- C6: whatever 16-bit id is drawn, `buildQuery` returns `headerToBytes` of the header with that
id, flags `0x0100`, one question and no other record, immediately followed by `questionToBytes`
of the question made of the encoded name, the record type and class 1, and nothing else. -/
theorem buildQuery_eq (id : Nat) (domainName : List Nat) (recordType : Nat) (hid : id < 65536) :
    buildQuery id domainName recordType =
      headerToBytes ⟨id, 0x0100, 1, 0, 0, 0⟩ ++
        questionToBytes ⟨encodeDNSName domainName, recordType, 1⟩ := by
  unfold buildQuery
  simp only [Nat.mod_eq_of_lt hid, CLASS_IN]
  have hflags : (1 <<< 8) % 65536 = 0x0100 := by decide
  have hclass : 1 % 65536 = 1 := by decide
  rw [hflags, hclass]
  generalize headerToBytes ⟨id, 0x0100, 1, 0, 0, 0⟩ = hb
  generalize questionToBytes ⟨encodeDNSName domainName, recordType, 1⟩ = qb
  rw [copyAt_zero_make hb qb.length]
  exact copyAt_length_append hb qb (makeBytes qb.length) (by simp [makeBytes])

/-- The query for `"a"` of type 1 with the id `0x1314`. -/
theorem buildQuery_eq_witness :
    buildQuery 0x1314 [97] 1 =
      [19, 20, 1, 0, 0, 1, 0, 0, 0, 0, 0, 0] ++ [1, 97, 0, 0, 1, 0, 1, 0, 0] :=
  buildQuery_eq 0x1314 [97] 1 (by decide)

/-- C7, as stated, fails: for the name bytes of `"example.com"`, type 1 and class 1,
`questionToBytes` does not return the name bytes followed by `[0,1,0,1]`. -/
theorem questionToBytes_four_bytes_counterexample :
    questionToBytes ⟨[101, 120, 97, 109, 112, 108, 101, 46, 99, 111, 109], 1, 1⟩ ≠
      [101, 120, 97, 109, 112, 108, 101, 46, 99, 111, 109] ++ [0, 1, 0, 1] := by
  decide

/-- C7, amended: for every question with 16-bit type and class, the first `len(name)` bytes of
`questionToBytes` are the name bytes, and what follows them is six bytes: the big-endian type,
the big-endian class, and two zero bytes. -/
theorem questionToBytes_six_bytes (q : DNSQuestion) (ht : q.type_ < 65536)
    (hc : q.class_ < 65536) :
    (questionToBytes q).take q.name.length = q.name ∧
    (questionToBytes q).drop q.name.length =
      [q.type_ / 256, q.type_ % 256, q.class_ / 256, q.class_ % 256, 0, 0] := by
  rw [questionToBytes_eq, shiftRight8_mod _ ht, shiftRight8_mod _ hc]
  simp

/-- The amended C7 on the name bytes `"a.b"`, type 28 and class 1. -/
theorem questionToBytes_six_bytes_witness :
    (questionToBytes ⟨[97, 46, 98], 28, 1⟩).take 3 = [97, 46, 98] ∧
    (questionToBytes ⟨[97, 46, 98], 28, 1⟩).drop 3 = [0, 28, 0, 1, 0, 0] :=
  questionToBytes_six_bytes ⟨[97, 46, 98], 28, 1⟩ (by decide) (by decide)

/-- C8: for every question with 16-bit type and class, `questionToBytes` has length
`len(name) + 6` and is the name followed by the big-endian type, the big-endian class and two
zero bytes. -/
theorem questionToBytes_length_and_bytes (q : DNSQuestion) (ht : q.type_ < 65536)
    (hc : q.class_ < 65536) :
    (questionToBytes q).length = q.name.length + 6 ∧
    questionToBytes q =
      q.name ++ [q.type_ / 256, q.type_ % 256] ++ [q.class_ / 256, q.class_ % 256] ++ [0, 0] := by
  rw [questionToBytes_eq, shiftRight8_mod _ ht, shiftRight8_mod _ hc]
  simp

/-- The vector of `TestQuestionToBytes`: the 11 bytes of `"example.com"`, type 1 and class 1 give
those 11 bytes followed by `[0,1,0,1,0,0]`. -/
theorem questionToBytes_length_and_bytes_witness :
    questionToBytes ⟨[101, 120, 97, 109, 112, 108, 101, 46, 99, 111, 109], 1, 1⟩ =
      [101, 120, 97, 109, 112, 108, 101, 46, 99, 111, 109, 0, 1, 0, 1, 0, 0] :=
  (questionToBytes_length_and_bytes
    ⟨[101, 120, 97, 109, 112, 108, 101, 46, 99, 111, 109], 1, 1⟩ (by decide) (by decide)).2

/-! ## Lemmas on `bytes.Buffer` and `encoding/binary` -/

theorem beUint16_pair (x y : Nat) (hx : x < 256) (hy : y < 256) :
    beUint16 [x, y] = x * 256 + y := by
  have hy8 : y < 2 ^ 8 := by norm_num; exact hy
  have h := Nat.mul_add_lt_is_or hy8 x
  simp only [beUint16, List.getD_cons_zero, List.getD_cons_succ, Nat.shiftLeft_eq]
  rw [Nat.lor_comm, Nat.mul_comm x (2 ^ 8), ← h]
  norm_num
  omega

theorem beUint32_quad (a b c d : Nat) (ha : a < 256) (hb : b < 256) (hc : c < 256)
    (hd : d < 256) :
    beUint32 [a, b, c, d] = a * 16777216 + b * 65536 + c * 256 + d := by
  have h1 := Nat.mul_add_lt_is_or (i := 8) (b := d) (by norm_num; exact hd) c
  have h2 := Nat.mul_add_lt_is_or (i := 16) (b := 2 ^ 8 * c + d) (by norm_num; omega) b
  have h3 := Nat.mul_add_lt_is_or (i := 24) (b := 2 ^ 16 * b + (2 ^ 8 * c + d))
    (by norm_num; omega) a
  simp only [beUint32, List.getD_cons_zero, List.getD_cons_succ, Nat.shiftLeft_eq]
  rw [Nat.lor_comm d, Nat.mul_comm c, ← h1, Nat.lor_comm _ (b * 2 ^ 16), Nat.mul_comm b, ← h2,
    Nat.lor_comm _ (a * 2 ^ 24), Nat.mul_comm a, ← h3]
  norm_num
  omega

theorem unread_cons {b : Buffer} {x : Nat} {rest : List Nat} (h : b.unread = x :: rest) :
    b.off < b.buf.length ∧ b.buf.getD b.off 0 = x ∧
      (⟨b.buf, b.off + 1⟩ : Buffer).unread = rest := by
  unfold Buffer.unread at h ⊢
  have hlt : b.off < b.buf.length := by
    by_contra hge
    rw [List.drop_of_length_le (by omega)] at h
    exact List.noConfusion h
  rw [List.drop_eq_getElem_cons hlt] at h
  injection h with h1 h2
  refine ⟨hlt, ?_, h2⟩
  simp [List.getD_eq_getElem?_getD, List.getElem?_eq_getElem hlt, h1]

theorem unread_length (b : Buffer) : b.unread.length = b.Len := by
  simp [Buffer.unread, Buffer.Len]

theorem ReadByte_cons {b : Buffer} {x : Nat} {rest : List Nat} (h : b.unread = x :: rest) :
    b.ReadByte = (.ok x, ⟨b.buf, b.off + 1⟩) ∧ (⟨b.buf, b.off + 1⟩ : Buffer).unread = rest := by
  obtain ⟨hlt, hx, hr⟩ := unread_cons h
  refine ⟨?_, hr⟩
  have hne : b.empty = false := by simp [Buffer.empty, hlt]
  unfold Buffer.ReadByte
  rw [hne, hx]
  rfl

theorem ReadByte_nil {b : Buffer} (h : b.unread = []) : b.ReadByte = (.error .EOF, b.Reset) := by
  have hl := unread_length b
  rw [h] at hl
  have he : b.empty = true := by
    simp only [Buffer.empty, decide_eq_true_eq]
    simp only [Buffer.Len, List.length_nil] at hl
    omega
  simp [Buffer.ReadByte, he]

/-- A `Read` into a slice of `len(xs)` bytes, with `xs` at the head of the unread bytes, fills
the slice with `xs` and leaves unread what follows `xs`. -/
theorem Read_append (b : Buffer) (xs rest p : List Nat) (h : b.unread = xs ++ rest)
    (hp : p.length = xs.length) :
    ∃ b1, b.Read p = (xs, xs.length, none, b1) ∧ b1.unread = rest := by
  have hl := unread_length b
  unfold Buffer.Read
  by_cases he : b.empty = true
  · have hle : b.buf.length ≤ b.off := by simpa [Buffer.empty] using he
    have hnil : b.unread = [] := by simp [Buffer.unread, List.drop_of_length_le hle]
    rw [hnil] at h
    have hxs : xs = [] := (List.append_eq_nil.mp h.symm).1
    have hrest : rest = [] := (List.append_eq_nil.mp h.symm).2
    subst hxs hrest
    have hp0 : p = [] := List.length_eq_zero.mp hp
    subst hp0
    exact ⟨b.Reset, by simp [he], by simp [Buffer.Reset, Buffer.unread]⟩
  · have hlen : xs.length ≤ b.buf.length - b.off := by
      have : b.unread.length = xs.length + rest.length := by rw [h, List.length_append]
      rw [hl, Buffer.Len] at this
      omega
    have hmin : min p.length (b.buf.length - b.off) = xs.length := by
      rw [hp]; exact Nat.min_eq_left hlen
    refine ⟨⟨b.buf, b.off + xs.length⟩, ?_, ?_⟩
    · simp only [he, hmin, h, List.take_left, Bool.false_eq_true, ↓reduceIte]
      simp [copyAt, hp]
    · have : (⟨b.buf, b.off + xs.length⟩ : Buffer).unread = b.unread.drop xs.length := by
        simp [Buffer.unread, List.drop_drop]
      rw [this, h, List.drop_left]

theorem ReadFull_append (b : Buffer) (xs rest p : List Nat) (h : b.unread = xs ++ rest)
    (hp : p.length = xs.length) :
    ∃ b1, ReadFull b p = (xs, xs.length, none, b1) ∧ b1.unread = rest := by
  unfold ReadFull ReadAtLeast
  simp only [Nat.lt_irrefl, ↓reduceIte]
  by_cases hk : p.length = 0
  · have hp0 : p = [] := List.length_eq_zero.mp hk
    have hxs : xs = [] := List.length_eq_zero.mp (by omega)
    subst hp0 hxs
    exact ⟨b, by simp [readAtLeastLoop], by simpa using h⟩
  · obtain ⟨b1, hread, hun⟩ := Read_append b xs rest p h hp
    refine ⟨b1, ?_, hun⟩
    have hpos : 0 < p.length := Nat.pos_of_ne_zero hk
    obtain ⟨k, hk1⟩ : ∃ k, p.length = k + 1 := ⟨p.length - 1, by omega⟩
    have hloop : readAtLeastLoop (p.length + 1) b p p.length 0 = (xs, xs.length, none, b1) := by
      rw [readAtLeastLoop]
      simp only [hpos, ↓reduceIte, List.drop_zero, hread, List.take_zero, List.nil_append,
        Nat.zero_add]
      rw [hk1, readAtLeastLoop]
      simp [← hp, hk1]
    rw [hloop]
    simp [hp]

theorem binaryReadUint16_pair {b : Buffer} {x y : Nat} {rest : List Nat} (cur : Nat)
    (h : b.unread = x :: y :: rest) (hx : x < 256) (hy : y < 256) :
    ∃ b1, binaryReadUint16 b cur = (x * 256 + y, none, b1) ∧ b1.unread = rest := by
  obtain ⟨b1, hread, hun⟩ := ReadFull_append b [x, y] rest (makeBytes 2) h rfl
  exact ⟨b1, by simp [binaryReadUint16, hread, beUint16_pair x y hx hy], hun⟩

theorem binaryReadUint32_quad {b : Buffer} {x y z w : Nat} {rest : List Nat} (cur : Nat)
    (h : b.unread = x :: y :: z :: w :: rest) (hx : x < 256) (hy : y < 256) (hz : z < 256)
    (hw : w < 256) :
    ∃ b1, binaryReadUint32 b cur = (x * 16777216 + y * 65536 + z * 256 + w, none, b1) ∧
      b1.unread = rest := by
  obtain ⟨b1, hread, hun⟩ := ReadFull_append b [x, y, z, w] rest (makeBytes 4) h rfl
  exact ⟨b1, by simp [binaryReadUint32, hread, beUint32_quad x y z w hx hy hz hw], hun⟩

/-! ## The fuel of `parseName` is never used up -/

theorem ReadByte_Len {b b1 : Buffer} {x : Nat} (h : b.ReadByte = (.ok x, b1)) :
    b1.Len + 1 = b.Len := by
  unfold Buffer.ReadByte at h
  by_cases he : b.empty = true
  · simp [he] at h
  · simp only [he, Bool.false_eq_true, ↓reduceIte, Prod.mk.injEq] at h
    have hlt : b.off < b.buf.length := by simpa [Buffer.empty] using he
    rw [← h.2]
    simp only [Buffer.Len]
    omega

theorem Truncate_Len {b b1 : Buffer} {n : Nat} (h : b.Truncate n = some b1) :
    b1.Len ≤ b.Len := by
  unfold Buffer.Truncate at h
  by_cases hn : n = 0
  · simp only [hn, ↓reduceIte, Option.some.injEq] at h
    rw [← h]; simp [Buffer.Reset, Buffer.Len]
  · by_cases hgt : n > b.Len
    · simp [hn, hgt] at h
    · simp only [hn, hgt, ↓reduceIte, Option.some.injEq] at h
      rw [← h]
      simp only [Buffer.Len, List.length_take] at hgt ⊢
      omega

theorem Read_Len {b b1 : Buffer} {p p1 : List Nat} {n : Nat} {e : Option GoError}
    (h : b.Read p = (p1, n, e, b1)) : b1.Len ≤ b.Len := by
  unfold Buffer.Read at h
  by_cases he : b.empty = true
  · by_cases hp : p.length = 0
    · simp only [he, hp, ↓reduceIte, Prod.mk.injEq] at h
      rw [← h.2.2.2]; simp [Buffer.Reset, Buffer.Len]
    · simp only [he, hp, ↓reduceIte, Prod.mk.injEq] at h
      rw [← h.2.2.2]; simp [Buffer.Reset, Buffer.Len]
  · simp only [he, Bool.false_eq_true, ↓reduceIte, Prod.mk.injEq] at h
    rw [← h.2.2.2]
    simp only [Buffer.Len]
    omega

/-- With more fuel than unread bytes the loop of `parseName` ends in a return, an error or the
panic of `Truncate`. -/
theorem parseNameLoop_fuel : ∀ (fuel : Nat) (b : Buffer) (acc : List Nat), b.Len < fuel →
    parseNameLoop fuel b acc ≠ .outOfFuel := by
  intro fuel
  induction fuel with
  | zero => intro b acc h; omega
  | succ f ih =>
    intro b acc h
    rw [parseNameLoop]
    split
    · simp
    · rename_i lengthByte b1 heq
      have h1 := ReadByte_Len heq
      split
      · split
        · simp
        · rename_i pointerByte b2 heq2
          have h2 := ReadByte_Len heq2
          simp only
          split
          · simp
          · rename_i b3 heq3
            have h3 := Truncate_Len heq3
            have hrec := ih b3 [] (by omega)
            split
            · split <;> simp
            · simp
            · simp
            · rename_i hout
              exact absurd hout hrec
      · split
        · simp
        · rename_i label n b2 heq2
          have h2 := Read_Len heq2
          simp only
          split
          · simp
          · exact ih _ _ (by omega)

/-- The function `parseName` always ends in a return, an error or the panic of `Truncate`. -/
theorem parseName_fuel (b : Buffer) : parseName b ≠ .outOfFuel :=
  parseNameLoop_fuel (b.Len + 1) b [] (Nat.lt_succ_self _)

/-! ## Claims on the decoders -/

theorem be_recombine (v : Nat) : v / 256 * 256 + v % 256 = v := by omega

/-- C2: for every header `h` with 16-bit fields and every byte sequence `rest`, `parseHeader` on
a buffer whose unread bytes are `headerToBytes h` followed by `rest` returns `h` and leaves
exactly `rest` unread: it consumes exactly 12 bytes. -/
theorem parseHeader_headerToBytes (h : DNSHeader) (hr : h.InRange) (b : Buffer)
    (rest : List Nat) (hb : b.unread = headerToBytes h ++ rest) :
    (parseHeader b).1 = h ∧ (parseHeader b).2.unread = rest ∧
      b.Len = (parseHeader b).2.Len + 12 := by
  have hlen : b.Len = rest.length + 12 := by
    rw [← unread_length, hb, List.length_append, (headerToBytes_bigEndian h hr).1]; omega
  rw [(headerToBytes_bigEndian h hr).2.1] at hb
  obtain ⟨r1, r2, r3, r4, r5, r6⟩ := hr
  simp only [List.cons_append, List.nil_append] at hb
  obtain ⟨b1, e1, u1⟩ := binaryReadUint16_pair 0 hb (by omega) (by omega)
  obtain ⟨b2, e2, u2⟩ := binaryReadUint16_pair 0 u1 (by omega) (by omega)
  obtain ⟨b3, e3, u3⟩ := binaryReadUint16_pair 0 u2 (by omega) (by omega)
  obtain ⟨b4, e4, u4⟩ := binaryReadUint16_pair 0 u3 (by omega) (by omega)
  obtain ⟨b5, e5, u5⟩ := binaryReadUint16_pair 0 u4 (by omega) (by omega)
  obtain ⟨b6, e6, u6⟩ := binaryReadUint16_pair 0 u5 (by omega) (by omega)
  have hp : parseHeader b = (h, b6) := by
    unfold parseHeader
    simp only [e1, e2, e3, e4, e5, e6, be_recombine]
  rw [hp]
  refine ⟨rfl, u6, ?_⟩
  rw [hlen, ← unread_length b6, u6]

/-- The header round trip on the header of `TestHeaderToBytes` followed by the byte 7. -/
theorem parseHeader_headerToBytes_witness :
    (parseHeader (NewBuffer [19, 20, 0, 0, 0, 1, 0, 0, 0, 0, 0, 0, 7])).1 = ⟨0x1314, 0, 1, 0, 0, 0⟩ ∧
    (parseHeader (NewBuffer [19, 20, 0, 0, 0, 1, 0, 0, 0, 0, 0, 0, 7])).2.unread = [7] ∧
    (NewBuffer [19, 20, 0, 0, 0, 1, 0, 0, 0, 0, 0, 0, 7]).Len =
      (parseHeader (NewBuffer [19, 20, 0, 0, 0, 1, 0, 0, 0, 0, 0, 0, 7])).2.Len + 12 :=
  parseHeader_headerToBytes ⟨0x1314, 0, 1, 0, 0, 0⟩ (by decide)
    (NewBuffer [19, 20, 0, 0, 0, 1, 0, 0, 0, 0, 0, 0, 7]) [7] (by decide)

theorem land_C0_of_le (n : Nat) (h : n ≤ 63) : ¬ (n &&& 0xC0 = 0xC0) := by
  intro hc
  have := Nat.and_le_left (n := n) (m := 0xC0)
  omega

theorem trimSuffixDot_concat (xs : List Nat) : trimSuffixDot (xs ++ [dot]) = xs := by
  simp [trimSuffixDot]

theorem wireLabels_length (labels : List (List Nat)) :
    labels.length ≤ (wireLabels labels).length := by
  induction labels with
  | nil => simp [wireLabels]
  | cons l ls ih => simp only [wireLabels, List.length_append, List.length_cons]; omega

/-- The loop of `parseName` on labels of 1 to 63 bytes followed by the zero byte: it returns the
labels, each followed by a dot, after what `name` already holds, and leaves unread what follows
the zero byte. -/
theorem parseNameLoop_labels (labels : List (List Nat))
    (hl : ∀ l ∈ labels, 1 ≤ l.length ∧ l.length ≤ 63) (rest : List Nat) :
    ∀ (fuel : Nat) (b : Buffer) (acc : List Nat), labels.length < fuel →
      b.unread = wireLabels labels ++ 0 :: rest →
      ∃ b1, parseNameLoop fuel b acc = .ok (acc ++ dotTerminated labels) b1 ∧
        b1.unread = rest := by
  induction labels with
  | nil =>
    intro fuel b acc hf hb
    obtain ⟨f, rfl⟩ : ∃ f, fuel = f + 1 := ⟨fuel - 1, by omega⟩
    simp only [wireLabels, List.nil_append] at hb
    obtain ⟨e1, u1⟩ := ReadByte_cons hb
    obtain ⟨b2, e2, u2⟩ := Read_append _ [] rest (makeBytes 0) (by simpa using u1) rfl
    refine ⟨b2, ?_, u2⟩
    rw [parseNameLoop]
    simp only [e1, e2]
    simp [dotTerminated, trimSuffixDot_concat]
  | cons l ls ih =>
    intro fuel b acc hf hb
    obtain ⟨f, rfl⟩ : ∃ f, fuel = f + 1 := ⟨fuel - 1, by omega⟩
    have hlen := hl l (by simp)
    simp only [wireLabels, List.cons_append, List.append_assoc] at hb
    obtain ⟨e1, u1⟩ := ReadByte_cons hb
    obtain ⟨b2, e2, u2⟩ := Read_append _ l (wireLabels ls ++ 0 :: rest) (makeBytes l.length) u1
      (by simp [makeBytes])
    obtain ⟨b3, e3, u3⟩ := ih (fun x hx => hl x (List.mem_cons_of_mem _ hx)) f b2
      ((acc ++ l) ++ [dot]) (by simpa using hf) u2
    refine ⟨b3, ?_, u3⟩
    rw [parseNameLoop]
    simp only [e1, e2]
    have hne : l.length ≠ 0 := by omega
    simp only [land_C0_of_le _ hlen.2, hne, ↓reduceIte, e3]
    simp [dotTerminated]

/-- The function `parseName` on an uncompressed name followed by `rest`. -/
theorem parseName_labels (labels : List (List Nat))
    (hl : ∀ l ∈ labels, 1 ≤ l.length ∧ l.length ≤ 63) (rest : List Nat) (b : Buffer)
    (hb : b.unread = wireLabels labels ++ 0 :: rest) :
    ∃ b1, parseName b = .ok (dotTerminated labels) b1 ∧ b1.unread = rest := by
  have hfuel : labels.length < b.Len + 1 := by
    have h1 := wireLabels_length labels
    have h2 : b.unread.length = (wireLabels labels).length + (rest.length + 1) := by
      rw [hb]; simp
    rw [unread_length] at h2
    omega
  obtain ⟨b1, e1, u1⟩ := parseNameLoop_labels labels hl rest (b.Len + 1) b [] hfuel hb
  exact ⟨b1, by simpa [parseName] using e1, u1⟩

/-- C9: for every buffer whose unread bytes are an uncompressed name (labels of 1 to 63 bytes,
each after its length byte, then a zero byte), 2 bytes of type, 2 of class, 4 of TTL, 2 of data
length `L`, `L` data bytes and then `rest`, `parseDNSRecord` succeeds; the record holds the
big-endian values of type, class, TTL and data length, its data is exactly the `L` data bytes,
and the bytes left unread are exactly `rest`. -/
theorem parseDNSRecord_wellFormed (b : Buffer) (labels : List (List Nat))
    (t0 t1 c0 c1 l0 l1 l2 l3 d0 d1 : Nat) (data rest : List Nat)
    (hl : ∀ l ∈ labels, 1 ≤ l.length ∧ l.length ≤ 63)
    (hbytes : ∀ x ∈ [t0, t1, c0, c1, l0, l1, l2, l3, d0, d1], x < 256)
    (hdata : data.length = d0 * 256 + d1)
    (hb : b.unread = wireLabels labels ++
      0 :: t0 :: t1 :: c0 :: c1 :: l0 :: l1 :: l2 :: l3 :: d0 :: d1 :: (data ++ rest)) :
    ∃ b1, parseDNSRecord b =
        .ok ⟨dotTerminated labels, t0 * 256 + t1, c0 * 256 + c1,
          l0 * 16777216 + l1 * 65536 + l2 * 256 + l3, d0 * 256 + d1, data⟩ b1 ∧
      b1.unread = rest := by
  simp only [List.mem_cons, List.mem_singleton, List.not_mem_nil, or_false, forall_eq_or_imp,
    forall_eq] at hbytes
  obtain ⟨ht0, ht1, hc0, hc1, hl0, hl1, hl2, hl3, hd0, hd1⟩ := hbytes
  obtain ⟨b1, e1, u1⟩ := parseName_labels labels hl _ b hb
  obtain ⟨b2, e2, u2⟩ := binaryReadUint16_pair 0 u1 ht0 ht1
  obtain ⟨b3, e3, u3⟩ := binaryReadUint16_pair 0 u2 hc0 hc1
  obtain ⟨b4, e4, u4⟩ := binaryReadUint32_quad 0 u3 hl0 hl1 hl2 hl3
  obtain ⟨b5, e5, u5⟩ := binaryReadUint16_pair 0 u4 hd0 hd1
  obtain ⟨b6, e6, u6⟩ := Read_append b5 data rest (makeBytes (d0 * 256 + d1)) u5
    (by simp [makeBytes, hdata])
  refine ⟨b6, ?_, u6⟩
  unfold parseDNSRecord
  simp only [e1, e2, e3, e4, e5, e6]

/-- A record of name `"a"`, type 1, class 1, TTL 60 and the 4 data bytes `1,2,3,4`, followed
by the byte 9. -/
theorem parseDNSRecord_wellFormed_witness :
    ∃ b1, parseDNSRecord (NewBuffer [1, 97, 0, 0, 1, 0, 1, 0, 0, 0, 60, 0, 4, 1, 2, 3, 4, 9]) =
        .ok ⟨[97, 46], 1, 1, 60, 4, [1, 2, 3, 4]⟩ b1 ∧ b1.unread = [9] :=
  parseDNSRecord_wellFormed (NewBuffer [1, 97, 0, 0, 1, 0, 1, 0, 0, 0, 60, 0, 4, 1, 2, 3, 4, 9])
    [[97]] 0 1 0 1 0 0 0 60 0 4 [1, 2, 3, 4] [9] (by decide) (by decide) (by decide) (by decide)

/-- C1 (the code departs from the claim): `parseName` on a buffer holding exactly
`encodeDNSName("google.com")` returns, with a `nil` error, the string `"google.com."`, which has
one more byte, a trailing dot, than the name that was encoded. -/
theorem parseName_encodeDNSName_google :
    parseName (NewBuffer (encodeDNSName [103, 111, 111, 103, 108, 101, 46, 99, 111, 109])) =
      .ok [103, 111, 111, 103, 108, 101, 46, 99, 111, 109, 46] ⟨[], 0⟩ ∧
    parseName (NewBuffer (encodeDNSName [103, 111, 111, 103, 108, 101, 46, 99, 111, 109])) ≠
      .ok [103, 111, 111, 103, 108, 101, 46, 99, 111, 109] ⟨[], 0⟩ := by
  decide

/-- C5 (the code departs from the claim): in a message with `"example.com"` spelled out at offset
12 and, at offset 29, the pointer `0xC0 0x0C`, `parseName` with the read position at the pointer
aborts with the panic of `Truncate`, both when the pointer ends the message and when the fixed
fields and the data of a record follow it. -/
theorem parseName_pointer_example_com :
    parseName ⟨[0, 0, 0, 0, 0, 0, 0, 0, 0, 0, 0, 0,
        7, 101, 120, 97, 109, 112, 108, 101, 3, 99, 111, 109, 0, 0, 1, 0, 1,
        0xC0, 0x0C], 29⟩ = .panic ∧
    parseName ⟨[0, 0, 0, 0, 0, 0, 0, 0, 0, 0, 0, 0,
        7, 101, 120, 97, 109, 112, 108, 101, 3, 99, 111, 109, 0, 0, 1, 0, 1,
        0xC0, 0x0C, 0, 1, 0, 1, 0, 0, 0, 60, 0, 4, 1, 2, 3, 4], 29⟩ = .panic := by
  decide

/-- C10 (the code departs from the claim): on a record of empty name, type 1, class 1, TTL 0 and
declared data length 4 of which only the 2 bytes `1,2` are in the buffer, `parseDNSRecord` returns
a record, with data `1,2,0,0`, and a `nil` error. -/
theorem parseDNSRecord_short_data :
    parseDNSRecord (NewBuffer [0, 0, 1, 0, 1, 0, 0, 0, 0, 0, 4, 1, 2]) =
      .ok ⟨[], 1, 1, 0, 4, [1, 2, 0, 0]⟩ ⟨[0, 0, 1, 0, 1, 0, 0, 0, 0, 0, 4, 1, 2], 13⟩ := by
  decide

/-! ## Claims on the encoders, continued -/

theorem encode_foldl_byte (parts : List (List Nat)) (acc : List Nat)
    (hlen : ∀ p ∈ parts, p.length ≤ 255) :
    parts.foldl (fun result part => (result ++ [part.length % 256]) ++ part) acc =
      acc ++ wireLabels parts := by
  induction parts generalizing acc with
  | nil => simp [wireLabels]
  | cons p ps ih =>
    have hp : p.length ≤ 255 := hlen p (by simp)
    have hmod : p.length % 256 = p.length := Nat.mod_eq_of_lt (by omega)
    rw [List.foldl_cons, ih _ (fun r hr => hlen r (List.mem_cons_of_mem _ hr)), hmod]
    simp [wireLabels]

theorem encodeDNSName_joinDots (parts : List (List Nat)) (hne : parts ≠ [])
    (hdot : ∀ p ∈ parts, dot ∉ p) (hlen : ∀ p ∈ parts, p.length ≤ 255) :
    encodeDNSName (joinDots parts) = wireLabels parts ++ [0] := by
  unfold encodeDNSName
  simp only [splitDots_joinDots parts hne hdot]
  rw [encode_foldl_byte parts [] hlen]
  simp

/-- C13, as stated, fails: `encodeDNSName` does not reject the name made of one label of 64
bytes, it returns the length byte 64, the 64 bytes of the label and the zero byte. -/
theorem encodeDNSName_label64_counterexample :
    encodeDNSName (List.replicate 64 97) = 64 :: (List.replicate 64 97 ++ [0]) := by
  decide

/-- C13, amended: `encodeDNSName` has no error result and no size check. A name whose parts are
each at most 255 bytes long, a part of exactly 63 bytes and a part of 64 bytes or more alike,
is encoded part by part as the length in one byte followed by the bytes of the part, and a
zero byte ends the encoding. -/
theorem encodeDNSName_no_size_check (name : List Nat) (parts : List (List Nat))
    (hjoin : joinDots parts = name) (hne : parts ≠ [])
    (hdot : ∀ p ∈ parts, dot ∉ p) (hlen : ∀ p ∈ parts, p.length ≤ 255) :
    encodeDNSName name = wireLabels parts ++ [0] := by
  subst hjoin
  exact encodeDNSName_joinDots parts hne hdot hlen

/-- The amended C13 on a name of two parts, of 63 bytes and of 64 bytes: the length bytes 63
and 64 are emitted. -/
theorem encodeDNSName_no_size_check_witness :
    encodeDNSName (List.replicate 63 97 ++ 46 :: List.replicate 64 98) =
      63 :: (List.replicate 63 97 ++ 64 :: (List.replicate 64 98 ++ [0])) := by
  have h := encodeDNSName_no_size_check (List.replicate 63 97 ++ 46 :: List.replicate 64 98)
    [List.replicate 63 97, List.replicate 64 98] (by decide) (by decide) (by decide) (by decide)
  rw [h]
  decide

/-- C14 (the code departs from the claim): `encodeDNSName("")` returns the two bytes `[0, 0]`:
`strings.Split("", ".")` is the one-element slice holding the empty string, for which the loop
emits a length byte 0, and the terminating zero byte follows. -/
theorem encodeDNSName_empty : encodeDNSName [] = [0, 0] ∧ encodeDNSName [] ≠ [0] := by
  decide

/-! ## Claims on `parseName` -/

/-- C18 (the code departs from the claim): the offset that `parseName` computes from the two
bytes of a pointer is the second byte alone, whatever the first byte is; the bytes `0xC1`,
`0x00` give the offset 0 and not 256. -/
theorem pointerOffset_eq_pointerByte :
    (∀ lengthByte pointerByte : Nat, pointerOffset lengthByte pointerByte = pointerByte) ∧
    pointerOffset 0xC1 0x00 = 0 ∧ pointerOffset 0xC1 0x00 ≠ (0xC1 &&& 0x3F) * 256 + 0x00 := by
  refine ⟨?_, by decide, by decide⟩
  intro lengthByte pointerByte
  simp [pointerOffset, Nat.shiftLeft_eq]

theorem wireLabels_length_eq (labels : List (List Nat)) :
    (wireLabels labels).length = (labels.map (fun l => 1 + l.length)).sum := by
  induction labels with
  | nil => simp [wireLabels]
  | cons l ls ih =>
    simp only [wireLabels, List.length_append, List.length_cons, List.map_cons, List.sum_cons, ih]
    omega

theorem dotTerminated_eq (labels : List (List Nat)) (hne : labels ≠ []) :
    dotTerminated labels = joinDots labels ++ [dot] := by
  induction labels with
  | nil => exact absurd rfl hne
  | cons l ls ih =>
    cases ls with
    | nil => simp [dotTerminated, joinDots]
    | cons m ms =>
      have h := ih (by simp)
      simp only [dotTerminated, joinDots] at h ⊢
      rw [h]
      simp

/-- C15: for every buffer whose unread bytes are an uncompressed name (labels of 1 to 63 bytes,
each after its length byte, then one zero byte) followed by `rest`, `parseName` returns and
leaves exactly `rest` unread: the number of unread bytes has gone down by `1 + length` for each
label and by 1 for the zero byte. -/
theorem parseName_cursor_advance (b : Buffer) (labels : List (List Nat)) (rest : List Nat)
    (hl : ∀ l ∈ labels, 1 ≤ l.length ∧ l.length ≤ 63)
    (hb : b.unread = wireLabels labels ++ 0 :: rest) :
    ∃ name b1, parseName b = .ok name b1 ∧ b1.unread = rest ∧
      b.Len = b1.Len + ((labels.map (fun l => 1 + l.length)).sum + 1) := by
  obtain ⟨b1, e1, u1⟩ := parseName_labels labels hl rest b hb
  refine ⟨dotTerminated labels, b1, e1, u1, ?_⟩
  rw [← unread_length b, ← unread_length b1, hb, u1, List.length_append, List.length_cons,
    wireLabels_length_eq]
  omega

/-- The name `"ab.c"` in wire form followed by the bytes 7 and 8: 6 bytes are consumed. -/
theorem parseName_cursor_advance_witness :
    ∃ name b1, parseName (NewBuffer [2, 97, 98, 1, 99, 0, 7, 8]) = .ok name b1 ∧
      b1.unread = [7, 8] ∧ (NewBuffer [2, 97, 98, 1, 99, 0, 7, 8]).Len = b1.Len + (3 + 2 + 0 + 1) :=
  parseName_cursor_advance (NewBuffer [2, 97, 98, 1, 99, 0, 7, 8]) [[97, 98], [99]] [7, 8]
    (by decide) (by decide)

/-- C20: for every non-empty name whose labels are each 1 to 63 bytes long, `parseName` on a
buffer holding `encodeDNSName(name)` returns, with a `nil` error, the name followed by exactly
one `'.'`. -/
theorem parseName_encodeDNSName_trailing_dot (labels : List (List Nat)) (b : Buffer)
    (hne : labels ≠ []) (hl : ∀ l ∈ labels, 1 ≤ l.length ∧ l.length ≤ 63)
    (hdot : ∀ l ∈ labels, dot ∉ l) (hb : b.unread = encodeDNSName (joinDots labels)) :
    ∃ b1, parseName b = .ok (joinDots labels ++ [dot]) b1 ∧ b1.unread = [] := by
  rw [encodeDNSName_joinDots labels hne hdot (fun l h => by have := (hl l h).2; omega)] at hb
  obtain ⟨b1, e1, u1⟩ := parseName_labels labels hl [] b hb
  exact ⟨b1, by rw [e1, dotTerminated_eq labels hne], u1⟩

/-- The name `"google.com"` decodes to `"google.com."`. -/
theorem parseName_encodeDNSName_trailing_dot_witness :
    ∃ b1, parseName (NewBuffer (encodeDNSName [103, 111, 111, 103, 108, 101, 46, 99, 111, 109])) =
      .ok [103, 111, 111, 103, 108, 101, 46, 99, 111, 109, 46] b1 ∧ b1.unread = [] :=
  parseName_encodeDNSName_trailing_dot [[103, 111, 111, 103, 108, 101], [99, 111, 109]]
    (NewBuffer (encodeDNSName [103, 111, 111, 103, 108, 101, 46, 99, 111, 109]))
    (by decide) (by decide) (by decide) (by decide)

/-- With more fuel than unread bytes the result of the loop of `parseName` does not depend on
the fuel. -/
theorem parseNameLoop_fuel_indep : ∀ (f1 f2 : Nat) (b : Buffer) (acc : List Nat),
    b.Len < f1 → b.Len < f2 → parseNameLoop f1 b acc = parseNameLoop f2 b acc := by
  intro f1
  induction f1 with
  | zero => intro f2 b acc h; omega
  | succ f ih =>
    intro f2 b acc h1 h2
    obtain ⟨g, rfl⟩ : ∃ g, f2 = g + 1 := ⟨f2 - 1, by omega⟩
    rw [parseNameLoop, parseNameLoop]
    rcases hrb : b.ReadByte with ⟨r, b1⟩
    cases r with
    | error e => rfl
    | ok lb =>
      have hL := ReadByte_Len hrb
      by_cases hp : lb &&& 0xC0 = 0xC0
      · simp only [hp, ↓reduceIte]
        rcases hrb2 : b1.ReadByte with ⟨r2, b2⟩
        cases r2 with
        | error e => rfl
        | ok pb =>
          have hL2 := ReadByte_Len hrb2
          simp only
          cases htr : b2.Truncate (pointerOffset lb pb) with
          | none => rfl
          | some b3 =>
            have hL3 := Truncate_Len htr
            simp only
            rw [ih g b3 [] (by omega) (by omega)]
      · simp only [hp, ↓reduceIte]
        rcases hrd : b1.Read (makeBytes lb) with ⟨lab, n, e, b2⟩
        have hL2 := Read_Len hrd
        cases e with
        | some e => rfl
        | none =>
          simp only
          by_cases hz : lb = 0
          · simp only [hz, ↓reduceIte]
          · simp only [hz, ↓reduceIte]
            exact ih g b2 _ (by omega) (by omega)

/-- C16: for every buffer content, `parseName` terminates: it ends with a name, with an error or
with the panic of `Truncate`, and any amount of fuel above the number of unread bytes gives
that same result. -/
theorem parseName_terminates (b : Buffer) :
    (parseName b = .panic ∨ (∃ e b1, parseName b = .error e b1) ∨
      ∃ name b1, parseName b = .ok name b1) ∧
    ∀ fuel, b.Len < fuel → parseNameLoop fuel b [] = parseName b := by
  constructor
  · have h := parseNameLoop_fuel (b.Len + 1) b [] (Nat.lt_succ_self _)
    unfold parseName
    cases hres : parseNameLoop (b.Len + 1) b [] with
    | ok v b1 => exact Or.inr (Or.inr ⟨v, b1, rfl⟩)
    | error e b1 => exact Or.inr (Or.inl ⟨e, b1, rfl⟩)
    | panic => exact Or.inl rfl
    | outOfFuel => exact absurd hres h
  · intro fuel hf
    exact parseNameLoop_fuel_indep fuel (b.Len + 1) b [] hf (Nat.lt_succ_self _)

/-- A pointer that targets its own offset 0: the call ends, and 100 units of fuel give the
result that 3 units give. -/
theorem parseName_terminates_witness :
    parseNameLoop 100 ⟨[0xC0, 0x00], 0⟩ [] = parseName ⟨[0xC0, 0x00], 0⟩ :=
  (parseName_terminates ⟨[0xC0, 0x00], 0⟩).2 100 (by decide)

/-! ## A compression pointer never yields a name -/

theorem ReadByte_error {b b1 : Buffer} {e : GoError} (h : b.ReadByte = (.error e, b1)) :
    e = .EOF := by
  unfold Buffer.ReadByte at h
  by_cases he : b.empty = true
  · simp only [he, ↓reduceIte, Prod.mk.injEq, Except.error.injEq] at h
    exact h.1.symm
  · simp [he] at h

theorem Read_error {b b1 : Buffer} {p p1 : List Nat} {n : Nat} {e : GoError}
    (h : b.Read p = (p1, n, some e, b1)) : e = .EOF := by
  unfold Buffer.Read at h
  by_cases he : b.empty = true
  · by_cases hp : p.length = 0
    · simp [he, hp] at h
    · simp only [he, hp, ↓reduceIte, Prod.mk.injEq, Option.some.injEq] at h
      exact h.2.2.1.symm
  · simp [he] at h

/-- A call of the loop of `parseName` that returns a name has read at least one byte. -/
theorem parseNameLoop_ok_Len : ∀ (fuel : Nat) (b : Buffer) (acc name : List Nat) (b' : Buffer),
    parseNameLoop fuel b acc = .ok name b' → b'.Len < b.Len := by
  intro fuel
  induction fuel with
  | zero => intro b acc name b' h; simp [parseNameLoop] at h
  | succ f ih =>
    intro b acc name b' h
    rw [parseNameLoop] at h
    rcases hrb : b.ReadByte with ⟨r, b1⟩
    rw [hrb] at h
    cases r with
    | error e => simp at h
    | ok lb =>
      have hL := ReadByte_Len hrb
      by_cases hp : lb &&& 0xC0 = 0xC0
      · simp only [hp, ↓reduceIte] at h
        rcases hrb2 : b1.ReadByte with ⟨r2, b2⟩
        rw [hrb2] at h
        cases r2 with
        | error e => simp at h
        | ok pb =>
          have hL2 := ReadByte_Len hrb2
          simp only at h
          cases htr : b2.Truncate (pointerOffset lb pb) with
          | none => simp [htr] at h
          | some b3 =>
            have hL3 := Truncate_Len htr
            rw [htr] at h
            simp only at h
            cases hres : parseNameLoop f b3 [] with
            | ok namePart b4 =>
              have hL4 := ih b3 [] namePart b4 hres
              rw [hres] at h
              simp only at h
              cases htr2 : b4.Truncate b2.Len with
              | none => simp [htr2] at h
              | some b5 =>
                have hL5 := Truncate_Len htr2
                rw [htr2] at h
                simp only [Outcome.ok.injEq] at h
                rw [← h.2]
                omega
            | error e b4 => simp [hres] at h
            | panic => simp [hres] at h
            | outOfFuel => simp [hres] at h
      · simp only [hp, ↓reduceIte] at h
        rcases hrd : b1.Read (makeBytes lb) with ⟨lab, n, e, b2⟩
        have hL2 := Read_Len hrd
        rw [hrd] at h
        cases e with
        | some e => simp at h
        | none =>
          simp only at h
          by_cases hz : lb = 0
          · simp only [hz, ↓reduceIte, Outcome.ok.injEq] at h
            rw [← h.2]
            omega
          · simp only [hz, ↓reduceIte] at h
            have := ih b2 _ name b' h
            omega

/-- A pass of the loop of `parseName` that reads a byte with its top two bits set does not
return a name: after `Truncate(offset)` and a nested call that returns, fewer than
`originalPos` bytes are left, and `Truncate(originalPos)` panics. -/
theorem parseNameLoop_pointer_not_ok (fuel : Nat) (b b1 : Buffer) (acc : List Nat) (lb : Nat)
    (hrb : b.ReadByte = (.ok lb, b1)) (hp : lb &&& 0xC0 = 0xC0) (name : List Nat)
    (b' : Buffer) : parseNameLoop (fuel + 1) b acc ≠ .ok name b' := by
  intro h
  rw [parseNameLoop, hrb] at h
  simp only [hp, ↓reduceIte] at h
  rcases hrb2 : b1.ReadByte with ⟨r2, b2⟩
  rw [hrb2] at h
  cases r2 with
  | error e => simp at h
  | ok pb =>
    simp only at h
    cases htr : b2.Truncate (pointerOffset lb pb) with
    | none => simp [htr] at h
    | some b3 =>
      have hL3 := Truncate_Len htr
      rw [htr] at h
      simp only at h
      cases hres : parseNameLoop fuel b3 [] with
      | ok namePart b4 =>
        have hL4 := parseNameLoop_ok_Len fuel b3 [] namePart b4 hres
        rw [hres] at h
        simp only at h
        have hnone : b4.Truncate b2.Len = none := by
          unfold Buffer.Truncate
          have h0 : b2.Len ≠ 0 := by omega
          have hgt : b2.Len > b4.Len := by omega
          simp [h0, hgt]
        simp [hnone] at h
      | error e b4 => simp [hres] at h
      | panic => simp [hres] at h
      | outOfFuel => simp [hres] at h

theorem parseNameLoop_readsPointer : ∀ (fuel : Nat) (b : Buffer) (acc name : List Nat)
    (b' : Buffer), readsPointer fuel b = true → parseNameLoop fuel b acc ≠ .ok name b' := by
  intro fuel
  induction fuel with
  | zero => intro b acc name b' h; simp [readsPointer] at h
  | succ f ih =>
    intro b acc name b' h
    rw [readsPointer] at h
    rcases hrb : b.ReadByte with ⟨r, b1⟩
    rw [hrb] at h
    cases r with
    | error e => simp at h
    | ok lb =>
      by_cases hp : lb &&& 0xC0 = 0xC0
      · exact parseNameLoop_pointer_not_ok f b b1 acc lb hrb hp name b'
      · simp only [hp, ↓reduceIte] at h
        rcases hrd : b1.Read (makeBytes lb) with ⟨lab, n, e, b2⟩
        rw [hrd] at h
        cases e with
        | some e => simp at h
        | none =>
          simp only at h
          by_cases hz : lb = 0
          · simp [hz] at h
          · simp only [hz, ↓reduceIte] at h
            rw [parseNameLoop, hrb]
            simp only [hp, ↓reduceIte, hrd, hz]
            exact ih b2 _ name b' h

/-- Every error that the loop of `parseName` returns is `io.EOF`. -/
theorem parseNameLoop_error_EOF : ∀ (fuel : Nat) (b : Buffer) (acc : List Nat) (e : GoError)
    (b' : Buffer), parseNameLoop fuel b acc = .error e b' → e = .EOF := by
  intro fuel
  induction fuel with
  | zero => intro b acc e b' h; simp [parseNameLoop] at h
  | succ f ih =>
    intro b acc e b' h
    rw [parseNameLoop] at h
    rcases hrb : b.ReadByte with ⟨r, b1⟩
    rw [hrb] at h
    cases r with
    | error e1 =>
      simp only [Outcome.error.injEq] at h
      rw [← h.1]; exact ReadByte_error hrb
    | ok lb =>
      by_cases hp : lb &&& 0xC0 = 0xC0
      · simp only [hp, ↓reduceIte] at h
        rcases hrb2 : b1.ReadByte with ⟨r2, b2⟩
        rw [hrb2] at h
        cases r2 with
        | error e2 =>
          simp only [Outcome.error.injEq] at h
          rw [← h.1]; exact ReadByte_error hrb2
        | ok pb =>
          simp only at h
          cases htr : b2.Truncate (pointerOffset lb pb) with
          | none => simp [htr] at h
          | some b3 =>
            rw [htr] at h
            simp only at h
            cases hres : parseNameLoop f b3 [] with
            | ok namePart b4 =>
              rw [hres] at h
              simp only at h
              cases htr2 : b4.Truncate b2.Len with
              | none => simp [htr2] at h
              | some b5 => simp [htr2] at h
            | error e4 b4 =>
              rw [hres] at h
              simp only [Outcome.error.injEq] at h
              rw [← h.1]; exact ih b3 [] e4 b4 hres
            | panic => simp [hres] at h
            | outOfFuel => simp [hres] at h
      · simp only [hp, ↓reduceIte] at h
        rcases hrd : b1.Read (makeBytes lb) with ⟨lab, n, e3, b2⟩
        rw [hrd] at h
        cases e3 with
        | some e3 =>
          simp only [Outcome.error.injEq] at h
          rw [← h.1]; exact Read_error hrd
        | none =>
          simp only at h
          by_cases hz : lb = 0
          · simp [hz] at h
          · simp only [hz, ↓reduceIte] at h
            exact ih b2 _ e b' h

/-- C19: for every buffer, if `parseName` comes to read as a length/control byte a byte whose
top two bits are set, the call never returns a name: it returns an error (`io.EOF`) or aborts
with the panic of `Truncate`. -/
theorem parseName_pointer_never_name (b : Buffer) (h : readsPointer (b.Len + 1) b = true) :
    parseName b = .panic ∨ ∃ b1, parseName b = .error .EOF b1 := by
  unfold parseName
  cases hres : parseNameLoop (b.Len + 1) b [] with
  | ok v b1 => exact absurd hres (parseNameLoop_readsPointer _ b [] v b1 h)
  | error e b1 =>
    have := parseNameLoop_error_EOF _ b [] e b1 hres
    subst this
    exact Or.inr ⟨b1, rfl⟩
  | panic => exact Or.inl rfl
  | outOfFuel => exact absurd hres (parseNameLoop_fuel _ b [] (Nat.lt_succ_self _))

/-- The label `"a"` followed by a pointer to offset 0, at the start of a buffer of 4 bytes. -/
theorem parseName_pointer_never_name_witness :
    readsPointer 5 (NewBuffer [1, 97, 0xC0, 0x00]) = true ∧
    (parseName (NewBuffer [1, 97, 0xC0, 0x00]) = .panic ∨
      ∃ b1, parseName (NewBuffer [1, 97, 0xC0, 0x00]) = .error .EOF b1) :=
  ⟨by decide, parseName_pointer_never_name (NewBuffer [1, 97, 0xC0, 0x00]) (by decide)⟩

/-- C12, as stated, fails: with a pointer at offset 20 that targets offset 20, at the end of a
message of 22 bytes, `parseName` does not return an error, it aborts with the panic of
`Truncate`; with 20 more bytes after the pointer the error it returns is `io.EOF`. -/
theorem parseName_self_pointer_counterexample :
    parseName ⟨[0, 0, 0, 0, 0, 0, 0, 0, 0, 0, 0, 0, 0, 0, 0, 0, 0, 0, 0, 0, 0xC0, 20], 20⟩ =
      .panic ∧
    parseName ⟨[0, 0, 0, 0, 0, 0, 0, 0, 0, 0, 0, 0, 0, 0, 0, 0, 0, 0, 0, 0, 0xC0, 20,
      25, 1, 1, 1, 1, 1, 1, 1, 1, 1, 1, 1, 1, 1, 1, 1, 1, 1, 1, 1], 20⟩ = .error .EOF ⟨[], 0⟩ := by
  decide

/-- C12, amended: for every buffer in which the name being decoded is a compression pointer (a
byte with its top two bits set and a second byte) whose target offset is the offset of the
pointer itself or any later offset, `parseName` fails: it does not hang and does not return a
name. The pointer stands at offset `b.off` of the message `b.buf`. -/
theorem parseName_forward_pointer_fails (b : Buffer) (lengthByte pointerByte : Nat)
    (rest : List Nat) (hb : b.unread = lengthByte :: pointerByte :: rest)
    (hp : lengthByte &&& 0xC0 = 0xC0)
    (htarget : b.off ≤ wirePointerTarget lengthByte pointerByte) :
    parseName b ≠ .outOfFuel ∧ ∀ name b1, parseName b ≠ .ok name b1 := by
  -- the code never compares the target with the offset of the pointer: the bound is not used
  have _hscope := htarget
  refine ⟨parseNameLoop_fuel _ b [] (Nat.lt_succ_self _), ?_⟩
  intro name b1
  exact parseNameLoop_pointer_not_ok b.Len b _ [] lengthByte (ReadByte_cons hb).1 hp name b1

/-- The amended C12 on a pointer at offset 20 that targets offset 20. -/
theorem parseName_forward_pointer_fails_witness :
    (20 : Nat) ≤ wirePointerTarget 0xC0 20 ∧
    parseName ⟨[0, 0, 0, 0, 0, 0, 0, 0, 0, 0, 0, 0, 0, 0, 0, 0, 0, 0, 0, 0, 0xC0, 20], 20⟩ ≠
      .outOfFuel ∧
    ∀ name b1,
      parseName ⟨[0, 0, 0, 0, 0, 0, 0, 0, 0, 0, 0, 0, 0, 0, 0, 0, 0, 0, 0, 0, 0xC0, 20], 20⟩ ≠
        .ok name b1 :=
  ⟨by decide, parseName_forward_pointer_fails
    ⟨[0, 0, 0, 0, 0, 0, 0, 0, 0, 0, 0, 0, 0, 0, 0, 0, 0, 0, 0, 0, 0xC0, 20], 20⟩ 0xC0 20 []
    (by decide) (by decide) (by decide)⟩

/-! ## Truncated names -/

theorem Read_nil {b : Buffer} {p : List Nat} (h : b.unread = []) (hp : p ≠ []) :
    b.Read p = (p, 0, some .EOF, b.Reset) := by
  have hl := unread_length b
  rw [h] at hl
  have he : b.empty = true := by
    simp only [Buffer.empty, decide_eq_true_eq]
    simp only [Buffer.Len, List.length_nil] at hl
    omega
  have hp0 : p.length ≠ 0 := fun h0 => hp (List.length_eq_zero.mp h0)
  simp [Buffer.Read, he, hp0]

/-- A `Read` into a slice longer than what is unread copies what is unread, returns no
error, and leaves the buffer empty. -/
theorem Read_short (b : Buffer) (q p : List Nat) (h : b.unread = q) (hq : q ≠ [])
    (hlen : q.length ≤ p.length) :
    ∃ b1, b.Read p = (q ++ p.drop q.length, q.length, none, b1) ∧ b1.unread = [] := by
  have hl := unread_length b
  rw [h] at hl
  have hpos : 0 < q.length := List.length_pos.mpr hq
  have he : b.empty = false := by
    simp only [Buffer.empty, decide_eq_false_iff_not]
    simp only [Buffer.Len] at hl
    omega
  have hmin : min p.length (b.buf.length - b.off) = q.length := by
    simp only [Buffer.Len] at hl
    rw [← hl]; exact Nat.min_eq_right hlen
  refine ⟨⟨b.buf, b.off + q.length⟩, ?_, ?_⟩
  · unfold Buffer.Read
    simp only [he, Bool.false_eq_true, ↓reduceIte, hmin, h]
    simp [copyAt, List.take_of_length_le hlen]
  · simp only [Buffer.unread]
    apply List.drop_of_length_le
    simp only [Buffer.Len] at hl
    omega

/-- The loop of `parseName` on a buffer that holds only a prefix of the length-prefixed labels,
without the zero byte: it returns `io.EOF`. -/
theorem parseNameLoop_truncated (labels : List (List Nat))
    (hl : ∀ l ∈ labels, 1 ≤ l.length ∧ l.length ≤ 63) :
    ∀ (p : List Nat) (fuel : Nat) (b : Buffer) (acc : List Nat), p <+: wireLabels labels →
      b.unread = p → p.length < fuel → ∃ b', parseNameLoop fuel b acc = .error .EOF b' := by
  induction labels with
  | nil =>
    intro p fuel b acc hp hb hf
    obtain ⟨f, rfl⟩ : ∃ f, fuel = f + 1 := ⟨fuel - 1, by omega⟩
    simp only [wireLabels, List.prefix_nil] at hp
    subst hp
    exact ⟨b.Reset, by rw [parseNameLoop, ReadByte_nil hb]⟩
  | cons l ls ih =>
    intro p fuel b acc hp hb hf
    obtain ⟨f, rfl⟩ : ∃ f, fuel = f + 1 := ⟨fuel - 1, by omega⟩
    have hlen := hl l (by simp)
    have hls : ∀ x ∈ ls, 1 ≤ x.length ∧ x.length ≤ 63 :=
      fun x hx => hl x (List.mem_cons_of_mem _ hx)
    simp only [wireLabels, List.cons_append] at hp
    rcases List.prefix_cons_iff.mp hp with hnil | ⟨q, hpq, hq⟩
    · subst hnil
      exact ⟨b.Reset, by rw [parseNameLoop, ReadByte_nil hb]⟩
    · subst hpq
      obtain ⟨e1, u1⟩ := ReadByte_cons hb
      have hnp := land_C0_of_le _ hlen.2
      have hne : l.length ≠ 0 := by omega
      simp only [List.length_cons] at hf
      rw [parseNameLoop, e1]
      simp only [hnp, ↓reduceIte]
      by_cases hqn : q = []
      · subst hqn
        have hmk : makeBytes l.length ≠ [] := by
          intro h0
          have := congrArg List.length h0
          simp only [makeBytes, List.length_replicate, List.length_nil] at this
          omega
        rw [Read_nil u1 hmk]
        exact ⟨_, rfl⟩
      · by_cases hlq : l <+: q
        · obtain ⟨q', rfl⟩ := hlq
          have hq' : q' <+: wireLabels ls := (List.prefix_append_right_inj l).mp hq
          obtain ⟨b2, e2, u2⟩ := Read_append _ l q' (makeBytes l.length) u1 (by simp [makeBytes])
          rw [e2]
          simp only [hne, ↓reduceIte]
          simp only [List.length_append] at hf
          exact ih hls q' f b2 _ hq' u2 (by omega)
        · have hql : q <+: l := by
            rcases List.prefix_or_prefix_of_prefix hq (List.prefix_append l (wireLabels ls)) with
              h | h
            · exact h
            · exact absurd h hlq
          have hqlen : q.length ≤ (makeBytes l.length).length := by
            simpa [makeBytes] using hql.length_le
          obtain ⟨b2, e2, u2⟩ := Read_short _ q (makeBytes l.length) u1 hqn hqlen
          rw [e2]
          simp only [hne, ↓reduceIte]
          have hqpos : 0 < q.length := List.length_pos.mpr hqn
          obtain ⟨g, rfl⟩ : ∃ g, f = g + 1 := ⟨f - 1, by omega⟩
          exact ⟨b2.Reset, by rw [parseNameLoop, ReadByte_nil u2]⟩

/-- C17: for every name whose labels are each 1 to 63 bytes long and every strict prefix `p` of
`encodeDNSName(name)`, the empty prefix and a prefix that ends inside a label included,
`parseName` on a buffer holding exactly `p` returns an error (`io.EOF`) and no name. -/
theorem parseName_truncated (labels : List (List Nat)) (p : List Nat) (b : Buffer)
    (hne : labels ≠ []) (hl : ∀ l ∈ labels, 1 ≤ l.length ∧ l.length ≤ 63)
    (hdot : ∀ l ∈ labels, dot ∉ l) (hp : p <+: encodeDNSName (joinDots labels))
    (hstrict : p ≠ encodeDNSName (joinDots labels)) (hb : b.unread = p) :
    ∃ b1, parseName b = .error .EOF b1 := by
  rw [encodeDNSName_joinDots labels hne hdot (fun l h => by have := (hl l h).2; omega)]
    at hp hstrict
  have hpw : p <+: wireLabels labels := by
    rcases List.prefix_or_prefix_of_prefix hp (List.prefix_append (wireLabels labels) [0]) with
      h | h
    · exact h
    · have hle : p.length ≤ (wireLabels labels).length := by
        have h1 := hp.length_le
        have h2 : p.length ≠ (wireLabels labels ++ [0]).length :=
          fun heq => hstrict (hp.eq_of_length heq)
        simp only [List.length_append, List.length_singleton] at h1 h2
        omega
      rw [h.eq_of_length_le hle]
  have hlen : p.length < b.Len + 1 := by rw [← unread_length, hb]; omega
  exact parseNameLoop_truncated labels hl p (b.Len + 1) b [] hpw hb hlen

/-- The first two bytes of the encoding of `"ab"`: the buffer ends inside the label. -/
theorem parseName_truncated_witness :
    ∃ b1, parseName (NewBuffer [2, 97]) = .error .EOF b1 :=
  parseName_truncated [[97, 98]] [2, 97] (NewBuffer [2, 97]) (by decide) (by decide) (by decide)
    (by decide) (by decide) (by decide)

/-! ## `parseHeader` on a short buffer -/

theorem binaryReadUint16_nil {b : Buffer} (cur : Nat) (h : b.unread = []) :
    binaryReadUint16 b cur = (cur, some .EOF, b.Reset) := by
  have hr : b.Read [0, 0] = ([0, 0], 0, some .EOF, b.Reset) := Read_nil h (by simp)
  have hm : makeBytes 2 = [0, 0] := rfl
  simp [binaryReadUint16, ReadFull, ReadAtLeast, hm, readAtLeastLoop, hr]

theorem binaryReadUint16_single {b : Buffer} {a : Nat} (cur : Nat) (h : b.unread = [a]) :
    ∃ b1, binaryReadUint16 b cur = (cur, some .ErrUnexpectedEOF, b1) ∧ b1.unread = [] := by
  obtain ⟨b1, hr1, u1⟩ := Read_short b [a] [0, 0] h (by simp) (by simp)
  have hr2 : b1.Read [0] = ([0], 0, some .EOF, b1.Reset) := Read_nil u1 (by simp)
  have hm : makeBytes 2 = [0, 0] := rfl
  refine ⟨b1.Reset, ?_, rfl⟩
  simp [binaryReadUint16, ReadFull, ReadAtLeast, hm, readAtLeastLoop, hr1, hr2]

/-- One `binary.Read` of a `uint16`, in terms of the unread bytes alone. -/
theorem binaryReadUint16_pure (b : Buffer) (cur : Nat) :
    ∃ e b1, binaryReadUint16 b cur = ((readUint16Pure b.unread cur).1, e, b1) ∧
      b1.unread = (readUint16Pure b.unread cur).2 := by
  rcases hu : b.unread with _ | ⟨x, _ | ⟨y, rest⟩⟩
  · exact ⟨some .EOF, b.Reset, binaryReadUint16_nil cur hu, rfl⟩
  · obtain ⟨b1, e1, u1⟩ := binaryReadUint16_single cur hu
    exact ⟨some .ErrUnexpectedEOF, b1, e1, u1⟩
  · obtain ⟨b1, hread, hun⟩ := ReadFull_append b [x, y] rest (makeBytes 2) hu rfl
    exact ⟨none, b1, by simp [binaryReadUint16, hread, readUint16Pure], hun⟩

/-- The function `parseHeader` in terms of the unread bytes alone. -/
theorem parseHeader_unread (b : Buffer) :
    (parseHeader b).1 = (parseHeaderPure b.unread).1 ∧
      (parseHeader b).2.unread = (parseHeaderPure b.unread).2 := by
  obtain ⟨x1, b1, e1, u1⟩ := binaryReadUint16_pure b 0
  obtain ⟨x2, b2, e2, u2⟩ := binaryReadUint16_pure b1 0
  obtain ⟨x3, b3, e3, u3⟩ := binaryReadUint16_pure b2 0
  obtain ⟨x4, b4, e4, u4⟩ := binaryReadUint16_pure b3 0
  obtain ⟨x5, b5, e5, u5⟩ := binaryReadUint16_pure b4 0
  obtain ⟨x6, b6, e6, u6⟩ := binaryReadUint16_pure b5 0
  have hp : parseHeader b =
      (⟨(readUint16Pure b.unread 0).1, (readUint16Pure b1.unread 0).1,
        (readUint16Pure b2.unread 0).1, (readUint16Pure b3.unread 0).1,
        (readUint16Pure b4.unread 0).1, (readUint16Pure b5.unread 0).1⟩, b6) := by
    unfold parseHeader
    simp only [e1, e2, e3, e4, e5, e6]
  rw [hp]
  simp only [parseHeaderPure]
  rw [← u1, ← u2, ← u3, ← u4, ← u5, ← u6]
  exact ⟨rfl, rfl⟩

/-- C11 (the code departs from the claim): on a buffer of 3 unread bytes `parseHeader` returns a
header, of id `0x1314` and five zero fields, and reports nothing. The second `binary.Read`
does return the truncation error `io.ErrUnexpectedEOF` and `parseHeader` drops it, whereas
`parseDNSRecord` returns the error of the same call on a truncated type field. -/
theorem parseHeader_three_bytes :
    parseHeader (NewBuffer [19, 20, 0]) = (⟨0x1314, 0, 0, 0, 0, 0⟩, ⟨[], 0⟩) ∧
    binaryReadUint16 ⟨[19, 20, 0], 2⟩ 0 = (0, some .ErrUnexpectedEOF, ⟨[], 0⟩) ∧
    parseDNSRecord (NewBuffer [0, 1]) = .error .ErrUnexpectedEOF ⟨[], 0⟩ := by
  decide

/-- What `parseHeader` does on every buffer with fewer than 12 unread bytes: it returns a
header in which each field whose two bytes are both in the buffer has their big-endian value
and every other field is 0, and it leaves the buffer empty. -/
theorem parseHeader_short (b : Buffer) (hlen : b.Len < 12) (hbytes : ∀ x ∈ b.unread, x < 256) :
    (parseHeader b).1 =
      ⟨fieldAt b.unread 0, fieldAt b.unread 1, fieldAt b.unread 2, fieldAt b.unread 3,
        fieldAt b.unread 4, fieldAt b.unread 5⟩ ∧
    (parseHeader b).2.unread = [] := by
  obtain ⟨h1, h2⟩ := parseHeader_unread b
  rw [h1, h2, ← unread_length] at *
  generalize b.unread = u at hlen hbytes ⊢
  rcases u with _ | ⟨a0, _ | ⟨a1, _ | ⟨a2, _ | ⟨a3, _ | ⟨a4, _ | ⟨a5, _ | ⟨a6, _ | ⟨a7,
    _ | ⟨a8, _ | ⟨a9, _ | ⟨a10, _ | ⟨a11, rest⟩⟩⟩⟩⟩⟩⟩⟩⟩⟩⟩⟩
  all_goals first
    | (simp only [List.length_cons] at hlen; omega)
    | (simp only [List.mem_cons, List.mem_singleton, List.not_mem_nil, or_false,
        forall_eq_or_imp, forall_eq, false_implies, implies_true, and_true] at hbytes
       simp [parseHeaderPure, readUint16Pure, fieldAt, beUint16_pair, hbytes])

/-- A buffer of 5 bytes: two fields are decoded, four are zero. -/
theorem parseHeader_short_witness :
    (parseHeader (NewBuffer [19, 20, 1, 0, 7])).1 = ⟨0x1314, 0x0100, 0, 0, 0, 0⟩ ∧
    (parseHeader (NewBuffer [19, 20, 1, 0, 7])).2.unread = [] :=
  parseHeader_short (NewBuffer [19, 20, 1, 0, 7]) (by decide) (by decide)

end DNSResolver
